import Mathlib

/-!
Verification of the statement splitter of
scripts/sql/trino_queries_flow.py.

The function under study is split_sql_queries.  The embedding below mirrors
the Python source line by line.  Text is modelled as List Char.  The per
character while-loop of the source keeps an index i into the current line,
cuts the line at each emitted delimiter, and looks one character ahead for
the two-character markers; here the already scanned part of the current
piece is carried reversed in acc, and the part still to scan is rest, so
that the source expression line[:i] is acc.reverse and the source cut
line = line[i+1:] with i = 0 is the recursive call with an empty acc.
-/

namespace TrinoQueriesFlow

/-- Whitespace recognised by the string strip of the source language. -/
def isSpaceChar (c : Char) : Bool :=
  c = ' ' ∨ c = '\t' ∨ c = '\n' ∨ c = '\r' ∨ c = '\x0b' ∨ c = '\x0c'

/-- Both-ends whitespace trim: the strip calls of the source. -/
def strip (s : List Char) : List Char :=
  ((s.dropWhile isSpaceChar).reverse.dropWhile isSpaceChar).reverse

/-- Split a character list at every occurrence of the separator, keeping
empty pieces, as the source splitting of the input on a newline does. -/
def splitOnChar (sep : Char) : List Char → List (List Char)
  | [] => [[]]
  | c :: rest =>
    match splitOnChar sep rest with
    | [] => [[]]
    | l :: ls => if c = sep then [] :: l :: ls else (c :: l) :: ls

/-- The single-space join applied to the pending pieces of a statement. -/
def joinSpace : List (List Char) → List Char
  | [] => []
  | [x] => x
  | x :: y :: ys => x ++ ' ' :: joinSpace (y :: ys)

/-- The mutable state of split_sql_queries: emitted statements, pending
pieces of the current statement, and the string and comment flags. -/
structure SplitState where
  queries : List (List Char)
  current : List (List Char)
  in_string : Bool
  string_char : Option Char
  in_comment : Bool
deriving DecidableEq, Repr

/-- The state at entry of split_sql_queries. -/
def initState : SplitState := ⟨[], [], false, none, false⟩

/-- The string-literal branch of the scanner: close the literal on its own
quote character, open one when outside, otherwise leave the state alone. -/
def toggleString (st : SplitState) (c : Char) : SplitState :=
  if st.in_string = true ∧ st.string_char = some c then
    { st with in_string := false, string_char := none }
  else if st.in_string = false then
    { st with in_string := true, string_char := some c }
  else st

/-- The delimiter branch: append the piece before the delimiter, join the
pending pieces with single spaces, trim, keep the result only when it is
non-empty, and reset the pending pieces. -/
def emitQuery (st : SplitState) (piece : List Char) : SplitState :=
  let full := strip (joinSpace (st.current ++ [piece]))
  { st with
    queries := if full = [] then st.queries else st.queries ++ [full],
    current := [] }

/-- The character loop of the source over one (already stripped) line.
acc holds the scanned part of the current piece reversed; rest is the part
still to scan.  The branches appear in source order: quote characters when
not inside a comment; a double dash outside a string ends the line in
comment state; star slash outside a string leaves comment state and skips
both characters; slash star outside a string enters comment state and
skips both characters; a semicolon outside string and comment emits; any
other character is passed over.  When the line is exhausted the remaining
piece is appended to the pending pieces unless the comment flag is set. -/
def scanChars (st : SplitState) (acc : List Char) : List Char → SplitState
  | [] =>
    if st.in_comment = true then st
    else { st with current := st.current ++ [acc.reverse] }
  | [c] =>
    if (c = '\'' ∨ c = '"') ∧ st.in_comment = false then
      scanChars (toggleString st c) (c :: acc) []
    else if c = ';' ∧ st.in_string = false ∧ st.in_comment = false then
      scanChars (emitQuery st acc.reverse) [] []
    else
      scanChars st (c :: acc) []
  | c :: c2 :: cs =>
    if (c = '\'' ∨ c = '"') ∧ st.in_comment = false then
      scanChars (toggleString st c) (c :: acc) (c2 :: cs)
    else if c = '-' ∧ c2 = '-' ∧ st.in_string = false then
      { st with in_comment := true }
    else if c = '*' ∧ c2 = '/' ∧ st.in_string = false then
      scanChars { st with in_comment := false } (c2 :: c :: acc) cs
    else if c = '/' ∧ c2 = '*' ∧ st.in_string = false then
      scanChars { st with in_comment := true } (c2 :: c :: acc) cs
    else if c = ';' ∧ st.in_string = false ∧ st.in_comment = false then
      scanChars (emitQuery st acc.reverse) [] (c2 :: cs)
    else
      scanChars st (c :: acc) (c2 :: cs)

/-- One iteration of the outer loop of the source over a raw input line:
strip it, skip it when blank or when it starts with a double dash, and
otherwise run the character loop. -/
def processLine (st : SplitState) (rawLine : List Char) : SplitState :=
  if strip rawLine = [] then st
  else if (strip rawLine).take 2 = ['-', '-'] then st
  else scanChars st [] (strip rawLine)

/-- The scanner state after all input lines, before the final flush.  The
source holds it in its local variables and discards it on return. -/
def finalState (sql_content : List Char) : SplitState :=
  (splitOnChar '\n' sql_content).foldl processLine initState

/-- The final flush of the source: when pieces are pending and the comment
flag is clear, join and trim them and keep the result when non-empty. -/
def finishSplit (st : SplitState) : List (List Char) :=
  if st.current ≠ [] ∧ st.in_comment = false then
    if strip (joinSpace st.current) = [] then st.queries
    else st.queries ++ [strip (joinSpace st.current)]
  else st.queries

/-- split_sql_queries of the source: run the line loop, then flush any
pending pieces (unless the comment flag is set), keeping the joined and
trimmed remainder only when it is non-empty. -/
def split_sql_queries (sql_content : List Char) : List (List Char) :=
  finishSplit (finalState sql_content)

/-- The reference splitter named by the specification, built from its own
words rather than from the source: split the input on the semicolon, trim
every piece of surrounding whitespace, and drop the empty pieces. -/
def referenceSplit (s : List Char) : List (List Char) :=
  ((splitOnChar ';' s).map strip).filter (fun p => p ≠ [])

/-- Adjacent occurrence of the two-character sequence a b. -/
def hasSeq (a b : Char) : List Char → Bool
  | c :: d :: rest => if c = a ∧ d = b then true else hasSeq a b (d :: rest)
  | _ => false

/-- A character that triggers none of the scanner branches. -/
def plainCode (c : Char) : Prop :=
  c ≠ '\'' ∧ c ≠ '"' ∧ c ≠ '-' ∧ c ≠ '*' ∧ c ≠ '/' ∧ c ≠ ';'

instance (c : Char) : Decidable (plainCode c) := by
  unfold plainCode
  infer_instance

/-- Ghost description (for proofs only) of the statements emitted by a scan
that starts outside any string or comment and meets no quote or marker:
split at each semicolon, trim, keep non-empty results. -/
def emitted (pre : List Char) : List Char → List (List Char)
  | [] => []
  | c :: cs =>
    if c = ';' then
      (if strip pre = [] then [] else [strip pre]) ++ emitted [] cs
    else emitted (pre ++ [c]) cs

/-- Ghost description of the piece pending after such a scan. -/
def lastPre (pre : List Char) : List Char → List Char
  | [] => pre
  | c :: cs => if c = ';' then lastPre [] cs else lastPre (pre ++ [c]) cs

/-- Append a list to the last piece. -/
def appendLast (w : List Char) : List (List Char) → List (List Char)
  | [] => [w]
  | [x] => [x ++ w]
  | x :: y :: xs => x :: appendLast w (y :: xs)

/-- Outcome of the character loop on part of a line: either the loop is
still running normally (state plus the scanned prefix of the current piece,
reversed), or a double dash broke out of it. -/
inductive ScanOut where
  | norm (st : SplitState) (acc : List Char)
  | brk (st : SplitState)
deriving DecidableEq, Repr

/-- The character loop of the source without its end-of-line step: same
branches as scanChars, but the loop outcome is returned instead of being
folded into the state, so that scans compose. -/
def scanPart (st : SplitState) (acc : List Char) : List Char → ScanOut
  | [] => .norm st acc
  | [c] =>
    if (c = '\'' ∨ c = '"') ∧ st.in_comment = false then
      scanPart (toggleString st c) (c :: acc) []
    else if c = ';' ∧ st.in_string = false ∧ st.in_comment = false then
      scanPart (emitQuery st acc.reverse) [] []
    else
      scanPart st (c :: acc) []
  | c :: c2 :: cs =>
    if (c = '\'' ∨ c = '"') ∧ st.in_comment = false then
      scanPart (toggleString st c) (c :: acc) (c2 :: cs)
    else if c = '-' ∧ c2 = '-' ∧ st.in_string = false then
      .brk { st with in_comment := true }
    else if c = '*' ∧ c2 = '/' ∧ st.in_string = false then
      scanPart { st with in_comment := false } (c2 :: c :: acc) cs
    else if c = '/' ∧ c2 = '*' ∧ st.in_string = false then
      scanPart { st with in_comment := true } (c2 :: c :: acc) cs
    else if c = ';' ∧ st.in_string = false ∧ st.in_comment = false then
      scanPart (emitQuery st acc.reverse) [] (c2 :: cs)
    else
      scanPart st (c :: acc) (c2 :: cs)

/-- The end-of-line step of the source applied to a loop outcome. -/
def scanFinish : ScanOut → SplitState
  | .norm st acc =>
    if st.in_comment = true then st
    else { st with current := st.current ++ [acc.reverse] }
  | .brk st => st

/-- Continue a loop outcome over further characters (a break stays one). -/
def scanCont : ScanOut → List Char → ScanOut
  | .norm st acc, ys => scanPart st acc ys
  | .brk st, _ => .brk st

/-! ## Facts about strip -/

theorem dropWhile_append_of_ne_nil {p : Char → Bool} {u v : List Char}
    (h : u.dropWhile p ≠ []) :
    (u ++ v).dropWhile p = u.dropWhile p ++ v := by
  rw [List.dropWhile_append]
  simp [List.isEmpty_iff, h]

theorem head_dropWhile_false {p : Char → Bool} {l : List Char} {c : Char}
    (h : (l.dropWhile p).head? = some c) : p c = false := by
  have := List.head?_dropWhile_not p l
  rw [h] at this
  exact this

theorem strip_nil : strip [] = [] := rfl

theorem strip_cons_space {c : Char} {l : List Char} (h : isSpaceChar c = true) :
    strip (c :: l) = strip l := by
  unfold strip
  rw [List.dropWhile_cons_of_pos h]

theorem strip_eq_nil_of_all {l : List Char} (h : ∀ c ∈ l, isSpaceChar c = true) :
    strip l = [] := by
  unfold strip
  rw [List.dropWhile_eq_nil_iff.mpr h]
  simp

theorem strip_append_spaces {w x : List Char} (hw : ∀ c ∈ w, isSpaceChar c = true) :
    strip (x ++ w) = strip x := by
  by_cases hx : x.dropWhile isSpaceChar = []
  · have hall : ∀ c ∈ x, isSpaceChar c = true := List.dropWhile_eq_nil_iff.mp hx
    have hallxw : ∀ c ∈ x ++ w, isSpaceChar c = true := by
      intro c hc
      rcases List.mem_append.mp hc with h | h
      · exact hall c h
      · exact hw c h
    rw [strip_eq_nil_of_all hallxw, strip_eq_nil_of_all hall]
  · unfold strip
    rw [dropWhile_append_of_ne_nil hx, List.reverse_append,
      List.dropWhile_append_of_pos (by simpa using hw)]

theorem strip_decomp (s : List Char) :
    ∃ w1 w2, (∀ c ∈ w1, isSpaceChar c = true) ∧ (∀ c ∈ w2, isSpaceChar c = true) ∧
      s = w1 ++ strip s ++ w2 := by
  refine ⟨s.takeWhile isSpaceChar,
    ((s.dropWhile isSpaceChar).reverse.takeWhile isSpaceChar).reverse, ?_, ?_, ?_⟩
  · intro c hc
    exact List.mem_takeWhile_imp hc
  · intro c hc
    exact List.mem_takeWhile_imp (List.mem_reverse.mp hc)
  · conv_lhs => rw [← List.takeWhile_append_dropWhile (p := isSpaceChar) (l := s)]
    unfold strip
    rw [List.append_assoc]
    congr 1
    conv_lhs => rw [← List.reverse_reverse (s.dropWhile isSpaceChar),
      ← List.takeWhile_append_dropWhile (p := isSpaceChar)
        (l := (s.dropWhile isSpaceChar).reverse)]
    rw [List.reverse_append]

theorem strip_eq_self {l : List Char}
    (h1 : ∀ c, l.head? = some c → isSpaceChar c = false)
    (h2 : ∀ c, l.getLast? = some c → isSpaceChar c = false) :
    strip l = l := by
  have d1 : l.dropWhile isSpaceChar = l := by
    cases l with
    | nil => rfl
    | cons c t => rw [List.dropWhile_cons_of_neg (by simp [h1 c rfl])]
  have d2 : l.reverse.dropWhile isSpaceChar = l.reverse := by
    cases hr : l.reverse with
    | nil => rfl
    | cons c t =>
      rw [List.dropWhile_cons_of_neg]
      simp only [Bool.not_eq_true]
      apply h2
      rw [← List.head?_reverse, hr]
      rfl
  unfold strip
  rw [d1, d2, List.reverse_reverse]

theorem strip_getLast {s : List Char} {c : Char}
    (h : (strip s).getLast? = some c) : isSpaceChar c = false := by
  unfold strip at h
  rw [List.getLast?_reverse] at h
  exact head_dropWhile_false h

theorem strip_head {s : List Char} {c : Char}
    (h : (strip s).head? = some c) : isSpaceChar c = false := by
  unfold strip at h
  rw [List.head?_reverse] at h
  rcases hd : (s.dropWhile isSpaceChar).reverse.dropWhile isSpaceChar with _ | ⟨a, t⟩
  · rw [hd] at h
    simp at h
  · have h1 : (a :: t).getLast? = some c := by rw [← hd]; exact h
    have hu : (s.dropWhile isSpaceChar).reverse =
        (s.dropWhile isSpaceChar).reverse.takeWhile isSpaceChar ++ a :: t := by
      rw [← hd, List.takeWhile_append_dropWhile]
    have h2 : (s.dropWhile isSpaceChar).head? = some c := by
      rw [← List.getLast?_reverse, hu, List.getLast?_append, h1]
      rfl
    exact head_dropWhile_false h2

theorem strip_idem (s : List Char) : strip (strip s) = strip s :=
  strip_eq_self (fun _ h => strip_head h) (fun _ h => strip_getLast h)

theorem strip_ne_nil_of_mem {s : List Char} {c : Char}
    (hc : c ∈ s) (hns : isSpaceChar c = false) : strip s ≠ [] := by
  intro h
  rcases strip_decomp s with ⟨w1, w2, hw1, hw2, hs⟩
  rw [h] at hs
  subst hs
  rcases List.mem_append.mp hc with hm | hm
  · rw [hw1 c (by simpa using hm)] at hns
    exact Bool.noConfusion hns
  · rw [hw2 c hm] at hns
    exact Bool.noConfusion hns

/-! ## Facts about hasSeq -/

theorem hasSeq_cons_of {a b c : Char} {l : List Char}
    (h : hasSeq a b l = true) : hasSeq a b (c :: l) = true := by
  cases l with
  | nil => simp [hasSeq] at h
  | cons d rest =>
    rw [hasSeq]
    split
    · rfl
    · exact h

theorem hasSeq_append_left {a b : Char} {u l : List Char}
    (h : hasSeq a b l = true) : hasSeq a b (u ++ l) = true := by
  induction u with
  | nil => exact h
  | cons c u ih => exact hasSeq_cons_of ih

theorem hasSeq_append_right {a b : Char} {l v : List Char}
    (h : hasSeq a b l = true) : hasSeq a b (l ++ v) = true := by
  induction l with
  | nil => simp [hasSeq] at h
  | cons c l ih =>
    cases l with
    | nil => simp [hasSeq] at h
    | cons d rest =>
      rw [hasSeq] at h
      rw [List.cons_append, List.cons_append, hasSeq]
      split
      · rfl
      · rename_i hg
        rw [if_neg hg] at h
        exact List.cons_append d rest v ▸ ih h

theorem hasSeq_strip_false {a b : Char} {s : List Char}
    (h : hasSeq a b s = false) : hasSeq a b (strip s) = false := by
  by_contra hc
  rcases strip_decomp s with ⟨w1, w2, _, _, hs⟩
  have hx : hasSeq a b (w1 ++ (strip s ++ w2)) = true :=
    hasSeq_append_left (hasSeq_append_right (by simpa using hc))
  rw [← List.append_assoc, ← hs, h] at hx
  exact Bool.noConfusion hx

theorem hasSeq_tail {a b c : Char} {l : List Char}
    (h : hasSeq a b (c :: l) = false) : hasSeq a b l = false := by
  by_contra hc
  rw [hasSeq_cons_of (by simpa using hc)] at h
  exact Bool.noConfusion h

/-! ## Facts about splitOnChar -/

theorem splitOnChar_ne_nil (sep : Char) (l : List Char) : splitOnChar sep l ≠ [] := by
  cases l with
  | nil => simp [splitOnChar]
  | cons c rest =>
    rw [splitOnChar]
    cases h : splitOnChar sep rest with
    | nil => simp
    | cons x xs => by_cases hcs : c = sep <;> simp [hcs]

theorem splitOnChar_no_sep {sep : Char} {l : List Char} (h : sep ∉ l) :
    splitOnChar sep l = [l] := by
  induction l with
  | nil => rfl
  | cons c rest ih =>
    have hcs : ¬ (c = sep) := fun hq => h (List.mem_cons.mpr (Or.inl hq.symm))
    rw [splitOnChar, ih (fun hm => h (List.mem_cons_of_mem c hm))]
    simp [hcs]

theorem splitOnChar_append_sep {sep : Char} {a b : List Char} (h : sep ∉ a) :
    splitOnChar sep (a ++ sep :: b) = a :: splitOnChar sep b := by
  induction a with
  | nil =>
    rw [List.nil_append, splitOnChar]
    rcases hb : splitOnChar sep b with _ | ⟨x, xs⟩
    · exact absurd hb (splitOnChar_ne_nil sep b)
    · simp
  | cons c a ih =>
    have hcs : ¬ (c = sep) := fun hq => h (List.mem_cons.mpr (Or.inl hq.symm))
    rw [List.cons_append, splitOnChar, ih (fun hm => h (List.mem_cons_of_mem c hm))]
    simp [hcs]

/-! ## Step lemmas for the character loop -/


theorem scanChars_nil {st : SplitState} {acc : List Char} (h : st.in_comment = false) :
    scanChars st acc [] = { st with current := st.current ++ [acc.reverse] } := by
  simp [scanChars, h]

theorem scanChars_nil_comment {st : SplitState} {acc : List Char}
    (h : st.in_comment = true) : scanChars st acc [] = st := by
  simp [scanChars, h]

theorem scanChars_quote {st : SplitState} {acc rest : List Char} {c : Char}
    (hc : c = '\'' ∨ c = '"') (h : st.in_comment = false) :
    scanChars st acc (c :: rest) = scanChars (toggleString st c) (c :: acc) rest := by
  cases rest with
  | nil =>
    conv_lhs => rw [scanChars]
    rw [if_pos ⟨hc, h⟩]
  | cons c2 cs =>
    conv_lhs => rw [scanChars]
    rw [if_pos ⟨hc, h⟩]

theorem scanChars_semi {st : SplitState} {acc rest : List Char}
    (hs : st.in_string = false) (hc : st.in_comment = false) :
    scanChars st acc (';' :: rest) = scanChars (emitQuery st acc.reverse) [] rest := by
  cases rest with
  | nil =>
    conv_lhs => rw [scanChars]
    rw [if_neg (by simp), if_pos ⟨rfl, hs, hc⟩]
  | cons c2 cs =>
    conv_lhs => rw [scanChars]
    rw [if_neg (by simp), if_neg (by simp), if_neg (by simp),
      if_neg (by simp), if_pos ⟨rfl, hs, hc⟩]

theorem scanChars_other {st : SplitState} {acc rest : List Char} {c : Char}
    (h1 : ¬((c = '\'' ∨ c = '"') ∧ st.in_comment = false))
    (h2 : ¬(c = '-' ∧ rest.head? = some '-' ∧ st.in_string = false))
    (h3 : ¬(c = '*' ∧ rest.head? = some '/' ∧ st.in_string = false))
    (h4 : ¬(c = '/' ∧ rest.head? = some '*' ∧ st.in_string = false))
    (h5 : ¬(c = ';' ∧ st.in_string = false ∧ st.in_comment = false)) :
    scanChars st acc (c :: rest) = scanChars st (c :: acc) rest := by
  cases rest with
  | nil =>
    conv_lhs => rw [scanChars]
    rw [if_neg h1, if_neg (fun hx => h5 ⟨hx.1, hx.2.1, hx.2.2⟩)]
  | cons c2 cs =>
    conv_lhs => rw [scanChars]
    rw [if_neg h1,
      if_neg (fun hx => h2 ⟨hx.1, by simp [hx.2.1], hx.2.2⟩),
      if_neg (fun hx => h3 ⟨hx.1, by simp [hx.2.1], hx.2.2⟩),
      if_neg (fun hx => h4 ⟨hx.1, by simp [hx.2.1], hx.2.2⟩),
      if_neg (fun hx => h5 ⟨hx.1, hx.2.1, hx.2.2⟩)]

theorem scanChars_dashdash {st : SplitState} {acc rest : List Char}
    (hs : st.in_string = false) :
    scanChars st acc ('-' :: '-' :: rest) = { st with in_comment := true } := by
  conv_lhs => rw [scanChars]
  by_cases hc : st.in_comment = false
  · rw [if_neg (by simp), if_pos ⟨rfl, rfl, hs⟩]
  · rw [if_neg (fun hx => hc hx.2), if_pos ⟨rfl, rfl, hs⟩]

theorem scanChars_closeComment {st : SplitState} {acc rest : List Char}
    (hs : st.in_string = false) :
    scanChars st acc ('*' :: '/' :: rest) =
      scanChars { st with in_comment := false } ('/' :: '*' :: acc) rest := by
  conv_lhs => rw [scanChars]
  by_cases hc : st.in_comment = false
  · rw [if_neg (by simp), if_neg (by simp), if_pos ⟨rfl, rfl, hs⟩]
  · rw [if_neg (fun hx => hc hx.2), if_neg (by simp), if_pos ⟨rfl, rfl, hs⟩]

theorem scanChars_openComment {st : SplitState} {acc rest : List Char}
    (hs : st.in_string = false) :
    scanChars st acc ('/' :: '*' :: rest) =
      scanChars { st with in_comment := true } ('*' :: '/' :: acc) rest := by
  conv_lhs => rw [scanChars]
  by_cases hc : st.in_comment = false
  · rw [if_neg (by simp), if_neg (by simp), if_neg (by simp),
      if_pos ⟨rfl, rfl, hs⟩]
  · rw [if_neg (fun hx => hc hx.2), if_neg (by simp), if_neg (by simp),
      if_pos ⟨rfl, rfl, hs⟩]

/-! ## Run lemmas: passing over stretches of characters -/

theorem scan_run_code {st : SplitState} :
    ∀ m : List Char, (∀ c ∈ m, plainCode c) →
      ∀ acc rest, scanChars st acc (m ++ rest) = scanChars st (m.reverse ++ acc) rest := by
  intro m
  induction m with
  | nil =>
    intro _ acc rest
    simp
  | cons a m ih =>
    intro hm acc rest
    rcases hm a (List.mem_cons_self a m) with ⟨p1, p2, p3, p4, p5, p6⟩
    have hq : ¬((a = '\'' ∨ a = '"') ∧ st.in_comment = false) := by
      rintro ⟨h | h, -⟩
      exacts [p1 h, p2 h]
    rw [List.cons_append,
      scanChars_other hq (fun hx => p3 hx.1) (fun hx => p4 hx.1)
        (fun hx => p5 hx.1) (fun hx => p6 hx.1),
      ih (fun c hcm => hm c (List.mem_cons_of_mem a hcm)) (a :: acc) rest]
    simp

theorem scan_run_string {st : SplitState} {sc : Char}
    (hst : st.in_string = true) (hsc : st.string_char = some sc)
    (hc : st.in_comment = false) :
    ∀ m : List Char, (∀ c ∈ m, c ≠ sc) →
      ∀ acc rest, scanChars st acc (m ++ rest) = scanChars st (m.reverse ++ acc) rest := by
  intro m
  induction m with
  | nil =>
    intro _ acc rest
    simp
  | cons a m ih =>
    intro hm acc rest
    have ha : a ≠ sc := hm a (List.mem_cons_self a m)
    have hstep : scanChars st acc (a :: (m ++ rest)) = scanChars st (a :: acc) (m ++ rest) := by
      by_cases hquote : a = '\'' ∨ a = '"'
      · rw [scanChars_quote hquote hc]
        have ht : toggleString st a = st := by
          unfold toggleString
          rw [if_neg (fun hx => ha (Option.some.inj (hsc.symm.trans hx.2)).symm),
            if_neg (by simp [hst])]
        rw [ht]
      · exact scanChars_other (fun hx => hquote hx.1)
          (fun hx => Bool.noConfusion (hst.symm.trans hx.2.2))
          (fun hx => Bool.noConfusion (hst.symm.trans hx.2.2))
          (fun hx => Bool.noConfusion (hst.symm.trans hx.2.2))
          (fun hx => Bool.noConfusion (hst.symm.trans hx.2.1))
    rw [List.cons_append, hstep, ih (fun c hcm => hm c (List.mem_cons_of_mem a hcm)) (a :: acc) rest]
    simp

/-! ## The comment flag across lines -/

theorem withComment_eq {st : SplitState} (h : st.in_comment = true) :
    { st with in_comment := true } = st := by
  cases st
  simp_all

theorem hasSeq_of_head {a b c : Char} {l : List Char}
    (hc : c = a) (hh : l.head? = some b) : hasSeq a b (c :: l) = true := by
  cases l with
  | nil => simp at hh
  | cons d t =>
    have hd : d = b := by simpa using hh
    rw [hasSeq, if_pos ⟨hc, hd⟩]

theorem scan_comment {st : SplitState} (hc : st.in_comment = true)
    (hs : st.in_string = false) :
    ∀ (n : Nat) (line : List Char), line.length ≤ n → ∀ acc,
      hasSeq '*' '/' line = false → scanChars st acc line = st := by
  intro n
  induction n with
  | zero =>
    intro line hlen acc _
    have : line = [] := List.length_eq_zero.mp (Nat.le_zero.mp hlen)
    subst this
    exact scanChars_nil_comment hc
  | succ n ih =>
    intro line hlen acc hseq
    match line with
    | [] => exact scanChars_nil_comment hc
    | [c] =>
      rw [scanChars_other (fun hx => Bool.noConfusion (hc.symm.trans hx.2))
        (fun hx => by simp at hx) (fun hx => by simp at hx) (fun hx => by simp at hx)
        (fun hx => Bool.noConfusion (hc.symm.trans hx.2.2))]
      exact scanChars_nil_comment hc
    | c :: c2 :: cs =>
      have hlen2 : cs.length ≤ n := by
        simp only [List.length_cons] at hlen
        omega
      have hlen1 : (c2 :: cs).length ≤ n := by
        simp only [List.length_cons] at hlen ⊢
        omega
      have hseq1 : hasSeq '*' '/' (c2 :: cs) = false := hasSeq_tail hseq
      have hseq2 : hasSeq '*' '/' cs = false := hasSeq_tail hseq1
      by_cases hdash : c = '-' ∧ c2 = '-'
      · rw [hdash.1, hdash.2, scanChars_dashdash hs, withComment_eq hc]
      · by_cases hopen : c = '/' ∧ c2 = '*'
        · rw [hopen.1, hopen.2, scanChars_openComment hs, withComment_eq hc]
          exact ih cs hlen2 _ hseq2
        · have hclose : ¬(c = '*' ∧ c2 = '/') := by
            rintro ⟨rfl, rfl⟩
            rw [hasSeq, if_pos ⟨rfl, rfl⟩] at hseq
            exact Bool.noConfusion hseq
          rw [scanChars_other (fun hx => Bool.noConfusion (hc.symm.trans hx.2))
            (fun hx => hdash ⟨hx.1, by simpa using hx.2.1⟩)
            (fun hx => hclose ⟨hx.1, by simpa using hx.2.1⟩)
            (fun hx => hopen ⟨hx.1, by simpa using hx.2.1⟩)
            (fun hx => Bool.noConfusion (hc.symm.trans hx.2.2))]
          exact ih (c2 :: cs) hlen1 _ hseq1

theorem processLine_comment {st : SplitState} {line : List Char}
    (hc : st.in_comment = true) (hs : st.in_string = false)
    (hseq : hasSeq '*' '/' line = false) :
    processLine st line = st := by
  unfold processLine
  by_cases h1 : strip line = []
  · rw [if_pos h1]
  · rw [if_neg h1]
    by_cases h2 : (strip line).take 2 = ['-', '-']
    · rw [if_pos h2]
    · rw [if_neg h2]
      exact scan_comment hc hs (strip line).length (strip line) le_rfl []
        (hasSeq_strip_false hseq)

/-! ## A clean scan over quote-free, marker-free text -/


theorem scan_clean :
    ∀ rest : List Char, (∀ c ∈ rest, c ≠ '\'' ∧ c ≠ '"') →
      hasSeq '-' '-' rest = false → hasSeq '*' '/' rest = false →
      hasSeq '/' '*' rest = false →
      ∀ (qs : List (List Char)) (acc : List Char),
        scanChars ⟨qs, [], false, none, false⟩ acc rest =
          ⟨qs ++ emitted acc.reverse rest, [lastPre acc.reverse rest],
            false, none, false⟩ := by
  intro rest
  induction rest with
  | nil =>
    intro _ _ _ _ qs acc
    rw [scanChars_nil rfl]
    simp [emitted, lastPre]
  | cons c cs ih =>
    intro hq h1 h2 h3 qs acc
    have hq' : ∀ x ∈ cs, x ≠ '\'' ∧ x ≠ '"' :=
      fun x hx => hq x (List.mem_cons_of_mem c hx)
    by_cases hsemi : c = ';'
    · subst hsemi
      rw [scanChars_semi rfl rfl]
      have he : emitQuery ⟨qs, [], false, none, false⟩ acc.reverse =
          ⟨qs ++ (if strip acc.reverse = [] then [] else [strip acc.reverse]),
            [], false, none, false⟩ := by
        by_cases hz : strip acc.reverse = [] <;>
          simp [emitQuery, joinSpace, hz]
      rw [he, ih hq' (hasSeq_tail h1) (hasSeq_tail h2) (hasSeq_tail h3) _ []]
      simp [emitted, lastPre, List.append_assoc]
    · have step : scanChars ⟨qs, [], false, none, false⟩ acc (c :: cs) =
          scanChars ⟨qs, [], false, none, false⟩ (c :: acc) cs := by
        apply scanChars_other
        · rintro ⟨hx, -⟩
          rcases hx with h | h
          · exact (hq c (List.mem_cons_self c cs)).1 h
          · exact (hq c (List.mem_cons_self c cs)).2 h
        · rintro ⟨hx1, hx2, -⟩
          rw [hasSeq_of_head hx1 hx2] at h1
          exact Bool.noConfusion h1
        · rintro ⟨hx1, hx2, -⟩
          rw [hasSeq_of_head hx1 hx2] at h2
          exact Bool.noConfusion h2
        · rintro ⟨hx1, hx2, -⟩
          rw [hasSeq_of_head hx1 hx2] at h3
          exact Bool.noConfusion h3
        · rintro ⟨hx, -, -⟩
          exact hsemi hx
      rw [step, ih hq' (hasSeq_tail h1) (hasSeq_tail h2) (hasSeq_tail h3) _ (c :: acc)]
      simp [emitted, lastPre, hsemi]

theorem emitted_glue :
    ∀ rest pre : List Char, ';' ∉ pre →
      emitted pre rest ++
          (if strip (lastPre pre rest) = [] then [] else [strip (lastPre pre rest)]) =
        referenceSplit (pre ++ rest) := by
  intro rest
  induction rest with
  | nil =>
    intro pre hpre
    rw [emitted, lastPre, List.append_nil, referenceSplit, splitOnChar_no_sep hpre]
    by_cases hz : strip pre = [] <;> simp [hz]
  | cons c cs ih =>
    intro pre hpre
    by_cases hsemi : c = ';'
    · subst hsemi
      rw [emitted, lastPre, if_pos rfl, if_pos rfl, List.append_assoc,
        ih [] (List.not_mem_nil ';')]
      conv_rhs => rw [referenceSplit, splitOnChar_append_sep hpre, List.map_cons,
        List.filter_cons]
      by_cases hz : strip pre = [] <;> simp [hz, referenceSplit]
    · have hpc : ';' ∉ pre ++ [c] := by
        intro hm
        rcases List.mem_append.mp hm with h | h
        · exact hpre h
        · have hce : ';' = c := by simpa using h
          exact hsemi hce.symm
      rw [emitted, lastPre, if_neg hsemi, if_neg hsemi, ih (pre ++ [c]) hpc,
        List.append_assoc, List.singleton_append]

/-! ## referenceSplit ignores surrounding whitespace -/

theorem referenceSplit_cons_space {c : Char} {t : List Char}
    (h : isSpaceChar c = true) : referenceSplit (c :: t) = referenceSplit t := by
  have hcs : ¬(c = ';') := by
    rintro rfl
    exact Bool.noConfusion ((by decide : isSpaceChar ';' = false).symm.trans h)
  rw [referenceSplit, referenceSplit]
  cases hsp : splitOnChar ';' t with
  | nil => exact absurd hsp (splitOnChar_ne_nil ';' t)
  | cons l ls =>
    rw [splitOnChar, hsp]
    simp only [if_neg hcs, List.map_cons, List.filter_cons, strip_cons_space h]

theorem referenceSplit_spaces_left {w t : List Char}
    (hw : ∀ c ∈ w, isSpaceChar c = true) :
    referenceSplit (w ++ t) = referenceSplit t := by
  induction w with
  | nil => rfl
  | cons c w ih =>
    rw [List.cons_append, referenceSplit_cons_space (hw c (List.mem_cons_self c w)),
      ih (fun x hx => hw x (List.mem_cons_of_mem c hx))]


theorem splitOnChar_append_no_sep {sep : Char} {s w : List Char} (hw : sep ∉ w) :
    splitOnChar sep (s ++ w) = appendLast w (splitOnChar sep s) := by
  induction s with
  | nil =>
    rw [List.nil_append, splitOnChar_no_sep hw]
    rfl
  | cons c s ih =>
    rw [List.cons_append]
    cases hs : splitOnChar sep s with
    | nil => exact absurd hs (splitOnChar_ne_nil sep s)
    | cons l ls =>
      rw [splitOnChar, ih, hs, splitOnChar, hs]
      cases ls with
      | nil => by_cases hcs : c = sep <;> simp [hcs, appendLast]
      | cons l2 ls2 => by_cases hcs : c = sep <;> simp [hcs, appendLast]

theorem map_strip_appendLast {w : List Char} (hw : ∀ c ∈ w, isSpaceChar c = true) :
    ∀ L : List (List Char), L ≠ [] → (appendLast w L).map strip = L.map strip := by
  intro L
  induction L with
  | nil => intro h; exact absurd rfl h
  | cons x xs ih =>
    intro _
    cases xs with
    | nil => simp [appendLast, strip_append_spaces hw]
    | cons y ys =>
      rw [appendLast, List.map_cons, List.map_cons, ih (List.cons_ne_nil y ys)]

theorem referenceSplit_spaces_right {t w : List Char}
    (hw : ∀ c ∈ w, isSpaceChar c = true) :
    referenceSplit (t ++ w) = referenceSplit t := by
  have hw' : ';' ∉ w := by
    intro hm
    exact Bool.noConfusion ((by decide : isSpaceChar ';' = false).symm.trans (hw ';' hm))
  rw [referenceSplit, referenceSplit, splitOnChar_append_no_sep hw',
    map_strip_appendLast hw _ (splitOnChar_ne_nil ';' t)]

theorem referenceSplit_strip (s : List Char) :
    referenceSplit (strip s) = referenceSplit s := by
  rcases strip_decomp s with ⟨w1, w2, hw1, hw2, hs⟩
  conv_rhs => rw [hs]
  rw [referenceSplit_spaces_right hw2, referenceSplit_spaces_left hw1]

/-! ## Every emitted statement is non-empty and trimmed -/

theorem toggleString_queries (st : SplitState) (c : Char) :
    (toggleString st c).queries = st.queries := by
  unfold toggleString
  split_ifs <;> rfl

theorem emitQuery_inv {st : SplitState} {piece : List Char}
    (hst : ∀ x ∈ st.queries, x ≠ [] ∧ strip x = x) :
    ∀ q ∈ (emitQuery st piece).queries, q ≠ [] ∧ strip q = q := by
  intro q hq
  by_cases hz : strip (joinSpace (st.current ++ [piece])) = []
  · simp only [emitQuery, hz, if_pos] at hq
    exact hst q hq
  · simp only [emitQuery, if_neg hz] at hq
    rcases List.mem_append.mp hq with h | h
    · exact hst q h
    · have hqe : q = strip (joinSpace (st.current ++ [piece])) := by simpa using h
      subst hqe
      exact ⟨hz, strip_idem _⟩

theorem scanChars_inv :
    ∀ (n : Nat) (rest : List Char), rest.length ≤ n → ∀ (st : SplitState) (acc : List Char),
      (∀ x ∈ st.queries, x ≠ [] ∧ strip x = x) →
      ∀ q ∈ (scanChars st acc rest).queries, q ≠ [] ∧ strip q = q := by
  intro n
  induction n with
  | zero =>
    intro rest hlen st acc hst
    have : rest = [] := List.length_eq_zero.mp (Nat.le_zero.mp hlen)
    subst this
    rw [scanChars]
    split_ifs <;> exact hst
  | succ n ih =>
    intro rest hlen st acc hst
    match rest with
    | [] =>
      rw [scanChars]
      split_ifs <;> exact hst
    | [c] =>
      rw [scanChars]
      split_ifs
      · exact ih [] (Nat.zero_le n) _ _ (by rw [toggleString_queries]; exact hst)
      · exact ih [] (Nat.zero_le n) _ _ (emitQuery_inv hst)
      · exact ih [] (Nat.zero_le n) _ _ hst
    | c :: c2 :: cs =>
      have hb1 : (c2 :: cs).length ≤ n := by
        simp only [List.length_cons] at hlen ⊢
        omega
      have hb2 : cs.length ≤ n := by
        simp only [List.length_cons] at hlen
        omega
      rw [scanChars]
      split_ifs
      · exact ih (c2 :: cs) hb1 _ _ (by rw [toggleString_queries]; exact hst)
      · exact hst
      · exact ih cs hb2 _ _ hst
      · exact ih cs hb2 _ _ hst
      · exact ih (c2 :: cs) hb1 _ _ (emitQuery_inv hst)
      · exact ih (c2 :: cs) hb1 _ _ hst

theorem processLine_inv {st : SplitState} {line : List Char}
    (hst : ∀ x ∈ st.queries, x ≠ [] ∧ strip x = x) :
    ∀ q ∈ (processLine st line).queries, q ≠ [] ∧ strip q = q := by
  unfold processLine
  split_ifs
  · exact hst
  · exact hst
  · exact scanChars_inv (strip line).length _ le_rfl st [] hst

theorem foldl_inv {lines : List (List Char)} :
    ∀ st : SplitState, (∀ x ∈ st.queries, x ≠ [] ∧ strip x = x) →
      ∀ q ∈ (lines.foldl processLine st).queries, q ≠ [] ∧ strip q = q := by
  induction lines with
  | nil => intro st hst; exact hst
  | cons l ls ih =>
    intro st hst
    rw [List.foldl_cons]
    exact ih (processLine st l) (processLine_inv hst)

theorem split_queries_inv {t q : List Char} (hq : q ∈ split_sql_queries t) :
    q ≠ [] ∧ strip q = q := by
  have hfs : ∀ x ∈ (finalState t).queries, x ≠ [] ∧ strip x = x :=
    foldl_inv initState (by intro x hx; simp [initState] at hx)
  unfold split_sql_queries finishSplit at hq
  split_ifs at hq with h1 h2
  · exact hfs q hq
  · rcases List.mem_append.mp hq with h | h
    · exact hfs q h
    · have hqe : q = strip (joinSpace (finalState t).current) := by simpa using h
      subst hqe
      exact ⟨h2, strip_idem _⟩
  · exact hfs q hq

/-! ## Support: strip around a protected middle, single-line inputs -/

theorem dropWhile_append_cons {pr : Char → Bool} {u t : List Char} {c : Char}
    (hc : pr c = false) :
    (u ++ c :: t).dropWhile pr = u.dropWhile pr ++ c :: t := by
  induction u with
  | nil =>
    rw [List.nil_append, List.dropWhile_cons_of_neg (by simp [hc]), List.dropWhile_nil,
      List.nil_append]
  | cons a u ih =>
    by_cases ha : pr a
    · rw [List.cons_append, List.dropWhile_cons_of_pos ha, ih,
        List.dropWhile_cons_of_pos ha]
    · rw [List.cons_append, List.dropWhile_cons_of_neg ha,
        List.dropWhile_cons_of_neg ha, List.cons_append]

theorem strip_middle {p r X : List Char}
    (hh : ∀ c, X.head? = some c → isSpaceChar c = false)
    (hl : ∀ c, X.getLast? = some c → isSpaceChar c = false)
    (hX : X ≠ []) :
    strip (p ++ X ++ r) =
      p.dropWhile isSpaceChar ++ X ++ (r.reverse.dropWhile isSpaceChar).reverse := by
  rcases X with _ | ⟨x0, X'⟩
  · exact absurd rfl hX
  have hx0 : isSpaceChar x0 = false := hh x0 rfl
  rcases (x0 :: X').eq_nil_or_concat with h | ⟨Xi, xl, hXc⟩
  · exact absurd h (List.cons_ne_nil x0 X')
  rw [List.concat_eq_append] at hXc
  have hxl : isSpaceChar xl = false := by
    apply hl
    rw [hXc]
    exact List.getLast?_concat Xi
  unfold strip
  rw [show p ++ (x0 :: X') ++ r = p ++ x0 :: (X' ++ r) by simp,
    dropWhile_append_cons hx0,
    show p.dropWhile isSpaceChar ++ x0 :: (X' ++ r) =
      p.dropWhile isSpaceChar ++ (x0 :: X') ++ r by simp,
    hXc,
    show (p.dropWhile isSpaceChar ++ (Xi ++ [xl]) ++ r).reverse =
      r.reverse ++ xl :: (Xi.reverse ++ (p.dropWhile isSpaceChar).reverse) by simp,
    dropWhile_append_cons hxl]
  simp [List.reverse_append, List.append_assoc]

theorem take2_ne_dashdash {c : Char} {t : List Char} (hc : ¬(c = '-')) :
    ¬((c :: t).take 2 = ['-', '-']) := by
  intro h
  rw [List.take_succ_cons] at h
  exact hc (List.cons.inj h).1

theorem finalState_single {s : List Char} (h : '\n' ∉ s) :
    finalState s = processLine initState s := by
  unfold finalState
  rw [splitOnChar_no_sep h]
  rfl

theorem strip_eq_self_append_semi {s : List Char} (hs : strip s = s) (hne : s ≠ []) :
    strip (s ++ [';']) = s ++ [';'] := by
  rcases s with _ | ⟨c, t⟩
  · exact absurd rfl hne
  apply strip_eq_self
  · intro x hx
    have hcx : x = c := by
      have h0 : c = x := by simpa using hx
      exact h0.symm
    subst hcx
    exact strip_head (c := x) (by rw [hs]; rfl)
  · intro x hx
    have hcx : x = ';' := by
      rw [List.getLast?_append] at hx
      have h0 : ';' = x := by simpa using hx
      exact h0.symm
    subst hcx
    decide

/-! ## Core equivalences used by the claims -/

theorem mem_of_mem_strip {s : List Char} {c : Char} (hc : c ∈ strip s) : c ∈ s := by
  rcases strip_decomp s with ⟨w1, w2, _, _, hs⟩
  rw [hs]
  simp only [List.mem_append]
  exact Or.inl (Or.inr hc)

theorem finishSplit_single {qs : List (List Char)} {x : List Char} :
    finishSplit ⟨qs, [x], false, none, false⟩ =
      if strip x = [] then qs else qs ++ [strip x] := by
  unfold finishSplit
  rw [if_pos ⟨List.cons_ne_nil x [], rfl⟩]
  rfl

theorem split_eq_reference {s : List Char}
    (hnl : '\n' ∉ s) (hq1 : '\'' ∉ s) (hq2 : '"' ∉ s)
    (h1 : hasSeq '-' '-' s = false) (h2 : hasSeq '*' '/' s = false)
    (h3 : hasSeq '/' '*' s = false) :
    split_sql_queries s = referenceSplit s := by
  rw [split_sql_queries, finalState_single hnl]
  unfold processLine
  by_cases hz : strip s = []
  · rw [if_pos hz]
    have hall : ∀ c ∈ s, isSpaceChar c = true := by
      rcases strip_decomp s with ⟨w1, w2, hw1, hw2, hs⟩
      rw [hz, List.append_nil] at hs
      intro c hc
      rw [hs] at hc
      rcases List.mem_append.mp hc with h | h
      · exact hw1 c h
      · exact hw2 c h
    have hnosemi : ';' ∉ s := fun hm =>
      Bool.noConfusion ((by decide : isSpaceChar ';' = false).symm.trans (hall ';' hm))
    rw [referenceSplit, splitOnChar_no_sep hnosemi]
    simp [finishSplit, initState, strip_eq_nil_of_all hall]
  · rw [if_neg hz]
    have hdash : ¬((strip s).take 2 = ['-', '-']) := by
      intro ht
      rcases hstrip : strip s with _ | ⟨a, t⟩
      · exact hz hstrip
      rcases t with _ | ⟨b, t2⟩
      · rw [hstrip] at ht
        simp [List.take] at ht
      · rw [hstrip] at ht
        have hab : a = '-' ∧ b = '-' := by
          constructor
          · exact (List.cons.inj ht).1
          · exact (List.cons.inj (List.cons.inj ht).2).1
        have hsq : hasSeq '-' '-' (strip s) = true := by
          rw [hstrip, hasSeq, if_pos hab]
        rw [hasSeq_strip_false h1] at hsq
        exact Bool.noConfusion hsq
    rw [if_neg hdash]
    have hqs : ∀ c ∈ strip s, c ≠ '\'' ∧ c ≠ '"' := by
      intro c hc
      have hcs : c ∈ s := mem_of_mem_strip hc
      constructor
      · rintro rfl
        exact hq1 hcs
      · rintro rfl
        exact hq2 hcs
    have hrun := scan_clean (strip s) hqs (hasSeq_strip_false h1) (hasSeq_strip_false h2)
      (hasSeq_strip_false h3) [] []
    rw [show initState = (⟨[], [], false, none, false⟩ : SplitState) from rfl, hrun]
    have hglue := emitted_glue (strip s) [] (List.not_mem_nil ';')
    rw [List.nil_append, referenceSplit_strip] at hglue
    rw [finishSplit_single]
    simp only [List.reverse_nil, List.nil_append]
    by_cases hlz : strip (lastPre [] (strip s)) = []
    · rw [if_pos hlz]
      rw [if_pos hlz, List.append_nil] at hglue
      exact hglue
    · rw [if_neg hlz]
      rw [if_neg hlz] at hglue
      exact hglue

theorem split_roundtrip_plain {s : List Char} (hne : s ≠ []) (hstrip : strip s = s)
    (hplain : ∀ c ∈ s, plainCode c ∧ c ≠ '\n') :
    split_sql_queries (s ++ [';']) = [s] := by
  have hnl : '\n' ∉ s ++ [';'] := by
    intro hm
    rcases List.mem_append.mp hm with h | h
    · exact (hplain '\n' h).2 rfl
    · exact absurd h (by decide)
  rw [split_sql_queries, finalState_single hnl]
  unfold processLine
  rw [strip_eq_self_append_semi hstrip hne,
    if_neg (by simp : ¬(s ++ [';'] = []))]
  rcases hs : s with _ | ⟨c, t⟩
  · exact absurd hs hne
  have hcd : ¬(c = '-') := by
    have hp := (hplain c (by rw [hs]; exact List.mem_cons_self c t)).1
    exact hp.2.2.1
  rw [List.cons_append, if_neg (take2_ne_dashdash hcd),
    (List.cons_append c t [';']).symm]
  have hplain' : ∀ x ∈ c :: t, plainCode x := by
    intro x hx
    exact (hplain x (by rw [hs]; exact hx)).1
  rw [scan_run_code (c :: t) hplain' [] [';'], scanChars_semi rfl rfl,
    show ((c :: t).reverse ++ ([] : List Char)).reverse = c :: t by simp]
  have hst2 : strip (c :: t) = c :: t := hs ▸ hstrip
  have hemit : emitQuery initState (c :: t) = ⟨[c :: t], [], false, none, false⟩ := by
    simp [emitQuery, initState, joinSpace, hst2]
  rw [hemit, scanChars_nil rfl]
  simp only [List.nil_append, List.reverse_nil]
  rw [finishSplit_single, if_pos strip_nil]

theorem scan_dash {st : SplitState} (hs : st.in_string = false)
    {u : List Char} (hu : ∀ c ∈ u, plainCode c) (v acc : List Char) :
    scanChars st acc (u ++ '-' :: '-' :: v) = { st with in_comment := true } := by
  rw [scan_run_code u hu acc ('-' :: '-' :: v), scanChars_dashdash hs]

theorem split_single_quoted {p q r : List Char}
    (hp : ∀ c ∈ p, plainCode c ∧ c ≠ '\n')
    (hq : ∀ c ∈ q, c ≠ '\'' ∧ c ≠ '\n')
    (hr : ∀ c ∈ r, plainCode c ∧ c ≠ '\n')
    (hhead : ∀ c ∈ p.take 1, isSpaceChar c = false) :
    split_sql_queries (p ++ '\'' :: (q ++ '\'' :: (r ++ [';']))) =
      [strip (p ++ '\'' :: (q ++ '\'' :: r))] := by
  have hnl : '\n' ∉ p ++ '\'' :: (q ++ '\'' :: (r ++ [';'])) := by
    intro hm
    simp only [List.mem_append, List.mem_cons] at hm
    rcases hm with h | h | h | h | h | h
    · exact (hp '\n' h).2 rfl
    · exact absurd h (by decide)
    · exact (hq '\n' h).2 rfl
    · exact absurd h (by decide)
    · exact (hr '\n' h).2 rfl
    · exact absurd h (by decide)
  have hshape : p ++ '\'' :: (q ++ '\'' :: (r ++ [';'])) =
      (p ++ '\'' :: (q ++ '\'' :: r)) ++ [';'] := by
    simp
  have hstrip_input : strip (p ++ '\'' :: (q ++ '\'' :: (r ++ [';']))) =
      p ++ '\'' :: (q ++ '\'' :: (r ++ [';'])) := by
    apply strip_eq_self
    · intro c hc
      rcases p with _ | ⟨a, t⟩
      · rw [List.nil_append] at hc
        have h0 : '\'' = c := by simpa using hc
        rw [← h0]
        decide
      · rw [List.cons_append] at hc
        have hca : a = c := by simpa using hc
        subst hca
        exact hhead a (by simp)
    · intro c hc
      rw [hshape, List.getLast?_append] at hc
      have hcs : c = ';' := by
        have h0 : ';' = c := by simpa using hc
        exact h0.symm
      subst hcs
      decide
  have hne_input : ¬(p ++ '\'' :: (q ++ '\'' :: (r ++ [';'])) = []) := by
    rcases p with _ | ⟨a, t⟩ <;> simp
  have htake : ¬((p ++ '\'' :: (q ++ '\'' :: (r ++ [';']))).take 2 = ['-', '-']) := by
    rcases p with _ | ⟨a, t⟩
    · rw [List.nil_append]
      exact take2_ne_dashdash (by decide)
    · rw [List.cons_append]
      exact take2_ne_dashdash (fun had => ((hp a (List.mem_cons_self a t)).1).2.2.1 had)
  rw [split_sql_queries, finalState_single hnl]
  unfold processLine
  rw [hstrip_input, if_neg hne_input, if_neg htake]
  have hp' : ∀ c ∈ p, plainCode c := fun c hc => (hp c hc).1
  have hq' : ∀ c ∈ q, c ≠ '\'' := fun c hc => (hq c hc).1
  have hr' : ∀ c ∈ r, plainCode c := fun c hc => (hr c hc).1
  rw [show initState = (⟨[], [], false, none, false⟩ : SplitState) from rfl,
    scan_run_code p hp' [] ('\'' :: (q ++ '\'' :: (r ++ [';']))),
    scanChars_quote (Or.inl rfl) rfl,
    show toggleString ⟨[], [], false, none, false⟩ '\'' =
      (⟨[], [], true, some '\'', false⟩ : SplitState) by decide,
    scan_run_string rfl rfl rfl q hq' ('\'' :: (p.reverse ++ []))
      ('\'' :: (r ++ [';'])),
    scanChars_quote (Or.inl rfl) rfl,
    show toggleString ⟨[], [], true, some '\'', false⟩ '\'' =
      (⟨[], [], false, none, false⟩ : SplitState) by decide,
    scan_run_code r hr' ('\'' :: (q.reverse ++ '\'' :: (p.reverse ++ []))) [';'],
    scanChars_semi rfl rfl]
  rw [show (r.reverse ++ '\'' :: (q.reverse ++ '\'' :: (p.reverse ++ ([] : List Char)))).reverse
      = p ++ '\'' :: (q ++ '\'' :: r) by simp]
  have hsne : strip (p ++ '\'' :: (q ++ '\'' :: r)) ≠ [] :=
    strip_ne_nil_of_mem (show '\'' ∈ p ++ '\'' :: (q ++ '\'' :: r) by simp) (by decide)
  have hemit : emitQuery ⟨[], [], false, none, false⟩ (p ++ '\'' :: (q ++ '\'' :: r)) =
      ⟨[strip (p ++ '\'' :: (q ++ '\'' :: r))], [], false, none, false⟩ := by
    simp [emitQuery, joinSpace, hsne]
  rw [hemit, scanChars_nil rfl]
  simp only [List.nil_append, List.reverse_nil]
  rw [finishSplit_single, if_pos strip_nil]

/-! ## The character loop in terms of partial scans -/

theorem scanChars_eq_finish_aux :
    ∀ (n : Nat) (rest : List Char), rest.length ≤ n → ∀ (st : SplitState) (acc : List Char),
      scanChars st acc rest = scanFinish (scanPart st acc rest) := by
  intro n
  induction n with
  | zero =>
    intro rest hlen st acc
    have : rest = [] := List.length_eq_zero.mp (Nat.le_zero.mp hlen)
    subst this
    rw [scanPart, scanFinish, scanChars]
  | succ n ih =>
    intro rest hlen st acc
    match rest with
    | [] => rw [scanPart, scanFinish, scanChars]
    | [c] =>
      conv_lhs => rw [scanChars]
      conv_rhs => rw [scanPart]
      split_ifs
      · exact ih [] (Nat.zero_le n) _ _
      · exact ih [] (Nat.zero_le n) _ _
      · exact ih [] (Nat.zero_le n) _ _
    | c :: c2 :: cs =>
      have hb1 : (c2 :: cs).length ≤ n := by
        simp only [List.length_cons] at hlen ⊢
        omega
      have hb2 : cs.length ≤ n := by
        simp only [List.length_cons] at hlen
        omega
      conv_lhs => rw [scanChars]
      conv_rhs => rw [scanPart]
      split_ifs
      · exact ih (c2 :: cs) hb1 _ _
      · rfl
      · exact ih cs hb2 _ _
      · exact ih cs hb2 _ _
      · exact ih (c2 :: cs) hb1 _ _
      · exact ih (c2 :: cs) hb1 _ _

theorem scanChars_eq_finish (st : SplitState) (acc rest : List Char) :
    scanChars st acc rest = scanFinish (scanPart st acc rest) :=
  scanChars_eq_finish_aux rest.length rest le_rfl st acc

theorem scanPart_brk_comment :
    ∀ (n : Nat) (rest : List Char), rest.length ≤ n →
      ∀ (st : SplitState) (acc : List Char) (st' : SplitState),
        scanPart st acc rest = .brk st' → st'.in_comment = true := by
  intro n
  induction n with
  | zero =>
    intro rest hlen st acc st' h
    have : rest = [] := List.length_eq_zero.mp (Nat.le_zero.mp hlen)
    subst this
    rw [scanPart] at h
    exact ScanOut.noConfusion h
  | succ n ih =>
    intro rest hlen st acc st' h
    match rest with
    | [] =>
      rw [scanPart] at h
      exact ScanOut.noConfusion h
    | [c] =>
      rw [scanPart] at h
      split_ifs at h
      · exact ih [] (Nat.zero_le n) _ _ _ h
      · exact ih [] (Nat.zero_le n) _ _ _ h
      · exact ih [] (Nat.zero_le n) _ _ _ h
    | c :: c2 :: cs =>
      have hb1 : (c2 :: cs).length ≤ n := by
        simp only [List.length_cons] at hlen ⊢
        omega
      have hb2 : cs.length ≤ n := by
        simp only [List.length_cons] at hlen
        omega
      rw [scanPart] at h
      split_ifs at h
      · exact ih (c2 :: cs) hb1 _ _ _ h
      · injection h with h'
        rw [← h']
      · exact ih cs hb2 _ _ _ h
      · exact ih cs hb2 _ _ _ h
      · exact ih (c2 :: cs) hb1 _ _ _ h
      · exact ih (c2 :: cs) hb1 _ _ _ h

theorem scanPart_append_semi_aux :
    ∀ (n : Nat) (xs : List Char), xs.length ≤ n → ∀ (st : SplitState) (acc : List Char),
      scanPart st acc (xs ++ [';']) = scanCont (scanPart st acc xs) [';'] := by
  intro n
  induction n with
  | zero =>
    intro xs hlen st acc
    have : xs = [] := List.length_eq_zero.mp (Nat.le_zero.mp hlen)
    subst this
    rw [List.nil_append, scanPart, scanCont]
  | succ n ih =>
    intro xs hlen st acc
    match xs with
    | [] => rw [List.nil_append, scanPart, scanCont]
    | [c] =>
      by_cases h1 : (c = '\'' ∨ c = '"') ∧ st.in_comment = false
      · conv_lhs => rw [List.cons_append, List.nil_append, scanPart]
        rw [if_pos h1]
        conv_rhs => rw [scanPart]
        rw [if_pos h1]
        rfl
      · by_cases h2 : c = ';' ∧ st.in_string = false ∧ st.in_comment = false
        · conv_lhs => rw [List.cons_append, List.nil_append, scanPart]
          rw [if_neg h1,
            if_neg (show ¬(c = '-' ∧ (';' : Char) = '-' ∧ st.in_string = false) from
              fun hx => absurd hx.2.1 (by decide)),
            if_neg (show ¬(c = '*' ∧ (';' : Char) = '/' ∧ st.in_string = false) from
              fun hx => absurd hx.2.1 (by decide)),
            if_neg (show ¬(c = '/' ∧ (';' : Char) = '*' ∧ st.in_string = false) from
              fun hx => absurd hx.2.1 (by decide)),
            if_pos h2]
          conv_rhs => rw [scanPart]
          rw [if_neg h1, if_pos h2]
          rfl
        · conv_lhs => rw [List.cons_append, List.nil_append, scanPart]
          rw [if_neg h1,
            if_neg (show ¬(c = '-' ∧ (';' : Char) = '-' ∧ st.in_string = false) from
              fun hx => absurd hx.2.1 (by decide)),
            if_neg (show ¬(c = '*' ∧ (';' : Char) = '/' ∧ st.in_string = false) from
              fun hx => absurd hx.2.1 (by decide)),
            if_neg (show ¬(c = '/' ∧ (';' : Char) = '*' ∧ st.in_string = false) from
              fun hx => absurd hx.2.1 (by decide)),
            if_neg h2]
          conv_rhs => rw [scanPart]
          rw [if_neg h1, if_neg h2]
          rfl
    | c :: c2 :: cs =>
      have hb1 : (c2 :: cs).length ≤ n := by
        simp only [List.length_cons] at hlen ⊢
        omega
      have hb2 : cs.length ≤ n := by
        simp only [List.length_cons] at hlen
        omega
      conv_lhs => rw [List.cons_append, List.cons_append, scanPart]
      conv_rhs => rw [scanPart]
      split_ifs
      · exact ih (c2 :: cs) hb1 _ _
      · rw [scanCont]
      · exact ih cs hb2 _ _
      · exact ih cs hb2 _ _
      · exact ih (c2 :: cs) hb1 _ _
      · exact ih (c2 :: cs) hb1 _ _

theorem scanPart_append_semi (st : SplitState) (acc xs : List Char) :
    scanPart st acc (xs ++ [';']) = scanCont (scanPart st acc xs) [';'] :=
  scanPart_append_semi_aux xs.length xs le_rfl st acc

/-! ## Produced statements contain no newline -/

theorem sep_not_mem_splitOnChar {sep : Char} :
    ∀ (s : List Char), ∀ l ∈ splitOnChar sep s, sep ∉ l := by
  intro s
  induction s with
  | nil =>
    intro l hl
    rw [splitOnChar] at hl
    have : l = [] := by simpa using hl
    subst this
    exact List.not_mem_nil sep
  | cons c rest ih =>
    intro l hl
    rw [splitOnChar] at hl
    cases hr : splitOnChar sep rest with
    | nil => exact absurd hr (splitOnChar_ne_nil sep rest)
    | cons x xs =>
      rw [hr] at hl
      have hl' : l ∈ (if c = sep then [] :: x :: xs else (c :: x) :: xs) := hl
      by_cases hcs : c = sep
      · rw [if_pos hcs] at hl'
        rcases List.mem_cons.mp hl' with h | h
        · subst h
          exact List.not_mem_nil sep
        · exact ih l (hr ▸ h)
      · rw [if_neg hcs] at hl'
        rcases List.mem_cons.mp hl' with h | h
        · subst h
          intro hm
          rcases List.mem_cons.mp hm with h | h
          · exact hcs h.symm
          · exact ih x (hr ▸ List.mem_cons_self x xs) h
        · exact ih l (hr ▸ List.mem_cons_of_mem x h)

theorem mem_joinSpace {c : Char} :
    ∀ {L : List (List Char)}, c ∈ joinSpace L → c = ' ' ∨ ∃ x ∈ L, c ∈ x := by
  intro L
  induction L with
  | nil =>
    intro h
    rw [joinSpace] at h
    exact absurd h (List.not_mem_nil c)
  | cons x xs ih =>
    intro h
    cases xs with
    | nil =>
      rw [joinSpace] at h
      exact Or.inr ⟨x, List.mem_cons_self x [], h⟩
    | cons y ys =>
      rw [joinSpace] at h
      rcases List.mem_append.mp h with h | h
      · exact Or.inr ⟨x, List.mem_cons_self x (y :: ys), h⟩
      · rcases List.mem_cons.mp h with h | h
        · exact Or.inl h
        · rcases ih h with h | ⟨z, hz, hcz⟩
          · exact Or.inl h
          · exact Or.inr ⟨z, List.mem_cons_of_mem x hz, hcz⟩

theorem toggleString_current (st : SplitState) (c : Char) :
    (toggleString st c).current = st.current := by
  unfold toggleString
  split_ifs <;> rfl

theorem emitQuery_nl {st : SplitState} {piece : List Char}
    (hq : ∀ x ∈ st.queries, '\n' ∉ x) (hcur : ∀ x ∈ st.current, '\n' ∉ x)
    (hp : '\n' ∉ piece) :
    (∀ x ∈ (emitQuery st piece).queries, '\n' ∉ x) ∧ (emitQuery st piece).current = [] := by
  have hfull : '\n' ∉ strip (joinSpace (st.current ++ [piece])) := by
    intro hm
    rcases mem_joinSpace (mem_of_mem_strip hm) with h | ⟨z, hz, hcz⟩
    · exact absurd h (by decide)
    · rcases List.mem_append.mp hz with h | h
      · exact hcur z h hcz
      · have : z = piece := by simpa using h
        subst this
        exact hp hcz
  constructor
  · intro x hx
    by_cases hz : strip (joinSpace (st.current ++ [piece])) = []
    · simp only [emitQuery, hz, if_pos] at hx
      exact hq x hx
    · simp only [emitQuery, if_neg hz] at hx
      rcases List.mem_append.mp hx with h | h
      · exact hq x h
      · have : x = strip (joinSpace (st.current ++ [piece])) := by simpa using h
        subst this
        exact hfull
  · rfl

theorem scanChars_nl :
    ∀ (n : Nat) (rest : List Char), rest.length ≤ n → ∀ (st : SplitState) (acc : List Char),
      (∀ x ∈ st.queries, '\n' ∉ x) → (∀ x ∈ st.current, '\n' ∉ x) →
      '\n' ∉ acc → '\n' ∉ rest →
      (∀ x ∈ (scanChars st acc rest).queries, '\n' ∉ x) ∧
        (∀ x ∈ (scanChars st acc rest).current, '\n' ∉ x) := by
  intro n
  induction n with
  | zero =>
    intro rest hlen st acc hq hcur hacc _
    have : rest = [] := List.length_eq_zero.mp (Nat.le_zero.mp hlen)
    subst this
    rw [scanChars]
    split_ifs
    · exact ⟨hq, hcur⟩
    · refine ⟨hq, ?_⟩
      intro x hx
      rcases List.mem_append.mp hx with h | h
      · exact hcur x h
      · have : x = acc.reverse := by simpa using h
        subst this
        intro hm
        exact hacc (List.mem_reverse.mp hm)
  | succ n ih =>
    intro rest hlen st acc hq hcur hacc hrest
    match rest with
    | [] =>
      exact ih [] (Nat.zero_le n) st acc hq hcur hacc hrest
    | [c] =>
      have hc : '\n' ∉ [c] → c ≠ '\n' := by
        intro h hc0
        exact h (by rw [hc0]; exact List.mem_cons_self _ _)
      have haccc : '\n' ∉ c :: acc := by
        intro hm
        rcases List.mem_cons.mp hm with h | h
        · exact hc hrest h.symm
        · exact hacc h
      rw [scanChars]
      split_ifs
      · exact ih [] (Nat.zero_le n) _ _
          (by rw [toggleString_queries]; exact hq)
          (by rw [toggleString_current]; exact hcur)
          haccc (by decide)
      · rcases emitQuery_nl hq hcur (fun hm => hacc (List.mem_reverse.mp hm)) with ⟨h1, h2⟩
        exact ih [] (Nat.zero_le n) _ _ h1 (by rw [h2]; intro x hx; exact absurd hx (List.not_mem_nil x))
          (List.not_mem_nil '\n') (by decide)
      · exact ih [] (Nat.zero_le n) _ _ hq hcur haccc (by decide)
    | c :: c2 :: cs =>
      have hb1 : (c2 :: cs).length ≤ n := by
        simp only [List.length_cons] at hlen ⊢
        omega
      have hb2 : cs.length ≤ n := by
        simp only [List.length_cons] at hlen
        omega
      have hnc : '\n' ∉ c :: acc := by
        intro hm
        rcases List.mem_cons.mp hm with h | h
        · exact hrest (by rw [← h]; exact List.mem_cons_self _ _)
        · exact hacc h
      have hnc2 : '\n' ∉ c2 :: c :: acc := by
        intro hm
        rcases List.mem_cons.mp hm with h | h
        · exact hrest (by rw [← h]; exact List.mem_cons_of_mem c (List.mem_cons_self _ _))
        · exact hnc h
      have hrest1 : '\n' ∉ c2 :: cs :=
        fun hm => hrest (List.mem_cons_of_mem c hm)
      have hrest2 : '\n' ∉ cs :=
        fun hm => hrest1 (List.mem_cons_of_mem c2 hm)
      rw [scanChars]
      split_ifs
      · exact ih (c2 :: cs) hb1 _ _
          (by rw [toggleString_queries]; exact hq)
          (by rw [toggleString_current]; exact hcur)
          hnc hrest1
      · exact ⟨hq, hcur⟩
      · exact ih cs hb2 _ _ hq hcur hnc2 hrest2
      · exact ih cs hb2 _ _ hq hcur hnc2 hrest2
      · rcases emitQuery_nl hq hcur (fun hm => hacc (List.mem_reverse.mp hm)) with ⟨h1, h2⟩
        exact ih (c2 :: cs) hb1 _ _ h1
          (by rw [h2]; intro x hx; exact absurd hx (List.not_mem_nil x))
          (List.not_mem_nil '\n') hrest1
      · exact ih (c2 :: cs) hb1 _ _ hq hcur hnc hrest1

theorem processLine_nl {st : SplitState} {line : List Char}
    (hq : ∀ x ∈ st.queries, '\n' ∉ x) (hcur : ∀ x ∈ st.current, '\n' ∉ x)
    (hline : '\n' ∉ line) :
    (∀ x ∈ (processLine st line).queries, '\n' ∉ x) ∧
      (∀ x ∈ (processLine st line).current, '\n' ∉ x) := by
  unfold processLine
  split_ifs
  · exact ⟨hq, hcur⟩
  · exact ⟨hq, hcur⟩
  · exact scanChars_nl (strip line).length _ le_rfl st [] hq hcur
      (List.not_mem_nil '\n') (fun hm => hline (mem_of_mem_strip hm))

theorem foldl_nl :
    ∀ (lines : List (List Char)), (∀ l ∈ lines, '\n' ∉ l) →
      ∀ st : SplitState,
        (∀ x ∈ st.queries, '\n' ∉ x) → (∀ x ∈ st.current, '\n' ∉ x) →
        (∀ x ∈ (lines.foldl processLine st).queries, '\n' ∉ x) ∧
          (∀ x ∈ (lines.foldl processLine st).current, '\n' ∉ x) := by
  intro lines
  induction lines with
  | nil =>
    intro _ st hq hcur
    exact ⟨hq, hcur⟩
  | cons l ls ih =>
    intro hl st hq hcur
    rw [List.foldl_cons]
    rcases processLine_nl hq hcur (hl l (List.mem_cons_self l ls)) with ⟨h1, h2⟩
    exact ih (fun x hx => hl x (List.mem_cons_of_mem l hx)) (processLine st l) h1 h2

theorem split_no_newline {t q : List Char} (hq : q ∈ split_sql_queries t) :
    '\n' ∉ q := by
  have hlines : ∀ l ∈ splitOnChar '\n' t, '\n' ∉ l := sep_not_mem_splitOnChar t
  rcases foldl_nl (splitOnChar '\n' t) hlines initState
      (by intro x hx; exact absurd hx (List.not_mem_nil x))
      (by intro x hx; exact absurd hx (List.not_mem_nil x)) with ⟨h1, h2⟩
  unfold split_sql_queries finishSplit at hq
  split_ifs at hq with hcond hz
  · exact h1 q hq
  · rcases List.mem_append.mp hq with h | h
    · exact h1 q h
    · have : q = strip (joinSpace (finalState t).current) := by simpa using h
      subst this
      intro hm
      rcases mem_joinSpace (mem_of_mem_strip hm) with h | ⟨z, hz2, hcz⟩
      · exact absurd h (by decide)
      · exact h2 z hz2 hcz
  · exact h1 q hq

/-! ## Round trip for scanner-neutral statements -/

theorem split_scan_neutral_roundtrip {s : List Char} (hne : s ≠ [])
    (hstrip : strip s = s) (hnl : '\n' ∉ s)
    (hscan : scanChars ⟨[], [], false, none, false⟩ [] s =
      ⟨[], [s], false, none, false⟩) :
    split_sql_queries (s ++ [';']) = [s] := by
  have hnl2 : '\n' ∉ s ++ [';'] := by
    intro hm
    rcases List.mem_append.mp hm with h | h
    · exact hnl h
    · exact absurd h (by decide)
  rw [split_sql_queries, finalState_single hnl2]
  unfold processLine
  rw [strip_eq_self_append_semi hstrip hne,
    if_neg (by simp : ¬(s ++ [';'] = []))]
  have htake : ¬((s ++ [';']).take 2 = ['-', '-']) := by
    intro ht
    have hdd : ∃ t0, s = '-' :: '-' :: t0 := by
      rcases s with _ | ⟨c1, s1⟩
      · exact absurd ht (by decide)
      rcases s1 with _ | ⟨c2, s2⟩
      · rw [List.cons_append, List.nil_append] at ht
        simp at ht
      · rw [List.cons_append, List.cons_append] at ht
        have h1 : c1 :: [c2] = ['-', '-'] := by
          simpa using ht
        refine ⟨s2, ?_⟩
        have hc1 : c1 = '-' := (List.cons.inj h1).1
        have hc2 : c2 = '-' := (List.cons.inj (List.cons.inj h1).2).1
        rw [hc1, hc2]
    rcases hdd with ⟨t0, hdd⟩
    rw [hdd, scanChars_dashdash rfl] at hscan
    have hcontr : (true : Bool) = false := congrArg SplitState.in_comment hscan
    exact Bool.noConfusion hcontr
  rw [if_neg htake]
  have hpart : scanPart ⟨[], [], false, none, false⟩ [] s =
      .norm ⟨[], [], false, none, false⟩ s.reverse := by
    have hL1 := scanChars_eq_finish ⟨[], [], false, none, false⟩ [] s
    rw [hscan] at hL1
    cases hp : scanPart ⟨[], [], false, none, false⟩ [] s with
    | brk st' =>
      have hb := scanPart_brk_comment s.length s le_rfl _ [] st' hp
      rw [hp, scanFinish] at hL1
      rw [← hL1] at hb
      exact Bool.noConfusion hb
    | norm st' acc' =>
      rw [hp, scanFinish] at hL1
      by_cases hcom : st'.in_comment = true
      · rw [if_pos hcom] at hL1
        rw [← hL1] at hcom
        exact Bool.noConfusion hcom
      · rw [if_neg hcom] at hL1
        obtain ⟨q0, c0, i0, sc0, m0⟩ := st'
        rw [SplitState.mk.injEq] at hL1
        obtain ⟨hq0, hc0, hi0, hsc0, hm0⟩ := hL1
        rcases c0 with _ | ⟨x, xs⟩
        · rw [List.nil_append] at hc0
          have hs0 : s = acc'.reverse := (List.cons.inj hc0).1
          have hacc : acc' = s.reverse := by
            rw [hs0, List.reverse_reverse]
          have e1 : q0 = [] := hq0.symm
          have e2 : i0 = false := hi0.symm
          have e3 : sc0 = none := hsc0.symm
          have e4 : m0 = false := hm0.symm
          rw [hacc, e1, e2, e3, e4]
        · exfalso
          have hlen := congrArg List.length hc0
          simp at hlen
  have hL2 := scanPart_append_semi ⟨[], [], false, none, false⟩ [] s
  rw [hpart, scanCont] at hL2
  have hsemi : scanPart (⟨[], [], false, none, false⟩ : SplitState) s.reverse [';'] =
      .norm ⟨[s], [], false, none, false⟩ [] := by
    conv_lhs => rw [scanPart]
    rw [if_neg (by simp), if_pos ⟨rfl, rfl, rfl⟩, List.reverse_reverse]
    have hemit : emitQuery ⟨[], [], false, none, false⟩ s =
        ⟨[s], [], false, none, false⟩ := by
      simp [emitQuery, joinSpace, hstrip, hne]
    rw [hemit, scanPart]
  have hfull := scanChars_eq_finish ⟨[], [], false, none, false⟩ [] (s ++ [';'])
  rw [hL2, hsemi, scanFinish, if_neg (fun h => Bool.noConfusion h)] at hfull
  rw [show initState = (⟨[], [], false, none, false⟩ : SplitState) from rfl, hfull]
  simp only [List.nil_append, List.reverse_nil]
  rw [finishSplit_single, if_pos strip_nil]

/-! ## The claims -/

/-- C1: for every input string split_sql_queries terminates with an ordered
list of strings (it is a total function of the embedding), and on the empty
input it returns the empty list rather than an error. -/
theorem C1_split_total_and_empty :
    split_sql_queries [] = [] ∧
      ∀ s : List Char, ∃ qs : List (List Char), split_sql_queries s = qs :=
  ⟨rfl, fun s => ⟨split_sql_queries s, rfl⟩⟩

/-- C2: evaluation of the code at the failing input of the claim.  The claim
says the text before a mid-line double dash is kept, the rest of the line is
discarded, and the line-comment state ends at the end of the line, so that
the result would be the single statement SELECT * FROM t WHERE id = 1.  The
code instead discards the pending text of the line, keeps the comment flag
across the line end, and therefore also swallows the whole second line and
returns no statement at all. -/
theorem C2_line_comment_swallows :
    split_sql_queries ("SELECT * FROM t -- comment\nWHERE id = 1;").data = [] := by
  decide

/-- C3 counterexample: characters lying inside a single-quoted literal ARE
treated as a comment marker when a whole input line (after trimming) starts
with a double dash: that line is skipped even though the scanner is inside
the literal, so its characters vanish from the output instead of surviving
intact (the intact statement would keep the dashes). -/
theorem C3_counterexample :
    split_sql_queries
        ("SELECT ".data ++ '\'' :: "a\n--b\nc".data ++ '\'' :: ";".data) =
      ["SELECT ".data ++ '\'' :: "a c".data ++ ['\'']] ∧
    split_sql_queries
        ("SELECT ".data ++ '\'' :: "a\n--b\nc".data ++ '\'' :: ";".data) ≠
      ["SELECT ".data ++ '\'' :: "a --b c".data ++ ['\'']] := by
  decide

/-- C3 amended: within the character loop the invariant does hold: while the
scanner is inside a string literal it passes over every character other than
the matching quote without emitting, without entering a comment and without
changing the state, and the matching quote itself merely closes the literal.
The invariant fails only for the whole-line skip of lines that start with a
double dash, which ignores the string state (see the counterexample). -/
theorem C3_amended :
    (∀ (st : SplitState) (sc : Char) (m acc rest : List Char),
        st.in_string = true → st.string_char = some sc → st.in_comment = false →
        (∀ c ∈ m, c ≠ sc) →
        scanChars st acc (m ++ rest) = scanChars st (m.reverse ++ acc) rest) ∧
    (∀ (st : SplitState) (sc : Char) (acc rest : List Char),
        st.in_string = true → st.string_char = some sc → st.in_comment = false →
        (sc = '\'' ∨ sc = '"') →
        scanChars st acc (sc :: rest) =
          scanChars { st with in_string := false, string_char := none }
            (sc :: acc) rest) := by
  constructor
  · intro st sc m acc rest h1 h2 h3 hm
    exact scan_run_string h1 h2 h3 m hm acc rest
  · intro st sc acc rest h1 h2 h3 hquote
    rw [scanChars_quote hquote h3]
    congr 1
    unfold toggleString
    rw [if_pos ⟨h1, h2⟩]

theorem C3_amended_witness :
    scanChars ⟨[], [], true, some '\'', false⟩ [] ("a;b".data ++ []) =
      scanChars ⟨[], [], true, some '\'', false⟩ ("a;b".data.reverse ++ []) [] ∧
    scanChars ⟨[], [], true, some '\'', false⟩ [] ('\'' :: []) =
      scanChars ⟨[], [], false, none, false⟩ ('\'' :: []) [] :=
  ⟨C3_amended.1 _ '\'' _ [] [] rfl rfl rfl (by decide),
   C3_amended.2 _ '\'' [] [] rfl rfl rfl (Or.inl rfl)⟩

/-- C4 counterexample: the input with delimiters inside a block comment does
yield exactly one statement, but the comment text and its marker characters
are NOT removed: the statement keeps the whole comment. -/
theorem C4_counterexample :
    split_sql_queries ("/* ; ; */ SELECT 2;").data = [("/* ; ; */ SELECT 2").data] ∧
    split_sql_queries ("/* ; ; */ SELECT 2;").data ≠ [("SELECT 2").data] := by
  decide

/-- C4 amended: exactly one statement is returned and the semicolons inside
the block comment never split, but comment characters of any line on which
the scanner leaves comment state are retained; on the multi-line variant the
opening line of the comment is dropped (its end is reached in comment state)
while the closing line keeps its comment fragment. -/
theorem C4_amended :
    split_sql_queries ("/* ; ; */ SELECT 2;").data = [("/* ; ; */ SELECT 2").data] ∧
    split_sql_queries ("/* ;\n; */ SELECT 2;").data = [("; */ SELECT 2").data] := by
  decide

/-- C5: for every single-line statement of the shape p, single quote, q,
single quote, r, terminating semicolon, where p and r carry no quote, no
marker character and no delimiter, q is the literal body (no single quote),
and the line starts with no whitespace, the result is exactly one statement,
and that statement contains the quoted literal intact (as a contiguous
segment). -/
theorem C5_semicolon_in_literal {p q r : List Char}
    (hp : ∀ c ∈ p, plainCode c ∧ c ≠ '\n')
    (hq : ∀ c ∈ q, c ≠ '\'' ∧ c ≠ '\n')
    (hr : ∀ c ∈ r, plainCode c ∧ c ≠ '\n')
    (hhead : ∀ c ∈ p.take 1, isSpaceChar c = false) :
    split_sql_queries (p ++ '\'' :: (q ++ '\'' :: (r ++ [';']))) =
      [strip (p ++ '\'' :: (q ++ '\'' :: r))] ∧
    ∃ u v, strip (p ++ '\'' :: (q ++ '\'' :: r)) =
      u ++ ('\'' :: (q ++ ['\''])) ++ v := by
  refine ⟨split_single_quoted hp hq hr hhead, ?_⟩
  refine ⟨p.dropWhile isSpaceChar, (r.reverse.dropWhile isSpaceChar).reverse, ?_⟩
  have hmid := strip_middle (p := p) (r := r) (X := '\'' :: (q ++ ['\'']))
    (by
      intro c hc
      have h0 : '\'' = c := by simpa using hc
      rw [← h0]
      decide)
    (by
      intro c hc
      rw [show ('\'' :: (q ++ ['\''])) = ('\'' :: q) ++ ['\''] by simp,
        List.getLast?_concat] at hc
      have h0 : '\'' = c := by simpa using hc
      rw [← h0]
      decide)
    (List.cons_ne_nil _ _)
  rw [show p ++ '\'' :: (q ++ '\'' :: r) = p ++ ('\'' :: (q ++ ['\''])) ++ r by simp]
  exact hmid

theorem C5_witness :
    split_sql_queries
        ("SELECT ".data ++ '\'' :: ("a;b".data ++ '\'' :: (" AS x".data ++ [';']))) =
      [strip ("SELECT ".data ++ '\'' :: ("a;b".data ++ '\'' :: " AS x".data))] ∧
    ∃ u v, strip ("SELECT ".data ++ '\'' :: ("a;b".data ++ '\'' :: " AS x".data)) =
      u ++ ('\'' :: ("a;b".data ++ ['\''])) ++ v :=
  C5_semicolon_in_literal (by decide) (by decide) (by decide) (by decide)

/-- C6 counterexample: on input that ends inside an unterminated literal the
function indeed does not throw and flushes the trimmed buffer, but its
entire observable result is the bare statement list: no anomaly signal of
any kind accompanies it (the returned value equals exactly the plain list),
so the claimed unterminated-literal signal does not exist. -/
theorem C6_counterexample :
    split_sql_queries ("SELECT ".data ++ '\'' :: "abc".data) =
      ["SELECT ".data ++ '\'' :: "abc".data] := by
  decide

/-- C6 amended: the unterminated input is flushed as a best-effort statement
and nothing is raised, and the open-literal condition is visible in the
internal scanner state (the string flag is still set at the end), but that
state is discarded by the source and no signal reaches the caller. -/
theorem C6_amended :
    split_sql_queries ("SELECT ".data ++ '\'' :: "abc".data) =
      ["SELECT ".data ++ '\'' :: "abc".data] ∧
    (finalState ("SELECT ".data ++ '\'' :: "abc".data)).in_string = true := by
  decide

/-- C7 counterexample: two statement families produced by split_sql_queries
fail the appended-delimiter round trip.  The statement flushed from an
unterminated literal re-splits with its quote protecting the appended
delimiter; and a comment fragment (the statement kept from a multi-line
block comment) contains a delimiter that was comment-protected when it was
first split but is live on a fresh scan, so re-splitting cuts it there. -/
theorem C7_counterexample :
    ("SELECT ".data ++ '\'' :: "abc".data) ∈
        split_sql_queries ("SELECT ".data ++ '\'' :: "abc".data) ∧
    split_sql_queries (("SELECT ".data ++ '\'' :: "abc".data) ++ [';']) ≠
      ["SELECT ".data ++ '\'' :: "abc".data] ∧
    ("; */ SELECT 2").data ∈ split_sql_queries ("/* ;\n; */ SELECT 2;").data ∧
    split_sql_queries (("; */ SELECT 2").data ++ [';']) ≠ [("; */ SELECT 2").data] := by
  decide

/-- C7 amended: re-splitting a produced statement with a delimiter appended
returns exactly that statement whenever a fresh scanner consumes the
statement as one single piece with nothing left open: started on the
statement alone from the initial state, the character loop emits nothing
and finishes with the whole statement as the only pending piece and both
flags clear.  This holds for produced statements containing quoted
delimiters, balanced block comments, stray close markers or dashes, and
fails exactly for the two families of the counterexample (unterminated
literal; comment fragment with a comment-protected delimiter). -/
theorem C7_amended {t s : List Char} (hs : s ∈ split_sql_queries t)
    (hscan : scanChars ⟨[], [], false, none, false⟩ [] s =
      ⟨[], [s], false, none, false⟩) :
    split_sql_queries (s ++ [';']) = [s] := by
  rcases split_queries_inv hs with ⟨hne, hstrip⟩
  exact split_scan_neutral_roundtrip hne hstrip (split_no_newline hs) hscan

theorem C7_amended_witness :
    split_sql_queries
        (("SELECT ".data ++ '\'' :: "a;b".data ++ '\'' :: " AS x".data) ++ [';']) =
      ["SELECT ".data ++ '\'' :: "a;b".data ++ '\'' :: " AS x".data] ∧
    split_sql_queries (("x */ y").data ++ [';']) = [("x */ y").data] :=
  ⟨C7_amended
      (t := ("SELECT ".data ++ '\'' :: "a;b".data ++ '\'' :: " AS x".data) ++ [';'])
      (by decide) (by decide),
   C7_amended (t := ("a -- c\nb;\nx */ y;").data) (by decide) (by decide)⟩

/-- C8 counterexample: on a two-line input with no quotes and no comment
markers the code joins the stripped lines with a single space, while the
reference split on the delimiter keeps the newline inside the piece, so the
two functions disagree. -/
theorem C8_counterexample :
    split_sql_queries ("a\nb;").data = [("a b").data] ∧
    referenceSplit ("a\nb;").data = [("a\nb").data] ∧
    split_sql_queries ("a\nb;").data ≠ referenceSplit ("a\nb;").data := by
  decide

/-- C8 amended: on every SINGLE-LINE input with no quote characters and no
line- or block-comment markers, split_sql_queries agrees with the reference
function that splits on the semicolon, trims each piece and drops the empty
pieces.  (Multi-line inputs are excluded by the counterexample: the code
normalises line breaks to single spaces.) -/
theorem C8_amended {s : List Char} (hnl : '\n' ∉ s) (hq1 : '\'' ∉ s)
    (hq2 : '"' ∉ s) (h1 : hasSeq '-' '-' s = false)
    (h2 : hasSeq '*' '/' s = false) (h3 : hasSeq '/' '*' s = false) :
    split_sql_queries s = referenceSplit s :=
  split_eq_reference hnl hq1 hq2 h1 h2 h3

theorem C8_amended_witness :
    split_sql_queries ("x; a-b ;; select 2 ;").data =
      referenceSplit ("x; a-b ;; select 2 ;").data :=
  C8_amended (by decide) (by decide) (by decide) (by decide) (by decide) (by decide)

/-- C9: every element of the returned list is non-empty and trimmed (strip
leaves it unchanged), empty statements are never emitted, and the input of
two consecutive delimiters yields the empty list. -/
theorem C9_trimmed_nonempty :
    (∀ t s : List Char, s ∈ split_sql_queries t → s ≠ [] ∧ strip s = s) ∧
    split_sql_queries (";;").data = [] :=
  ⟨fun _ _ hs => split_queries_inv hs, by decide⟩

theorem C9_witness :
    ("x".data ≠ [] ∧ strip "x".data = "x".data) ∧
      split_sql_queries (";;").data = [] :=
  ⟨C9_trimmed_nonempty.1 ("x;").data "x".data (by decide), C9_trimmed_nonempty.2⟩

/-- C10: a double dash met part-way through a line outside a string (after
any stretch of branch-neutral characters) ends the line at once with the
comment flag set and the pending pre-dash text discarded; the flag is not
cleared at the end of the line: any later line containing no star-slash
sequence is processed to no effect at all, and a line that does clear the
flag must contain star-slash; the concrete scenario shows all three. -/
theorem C10_comment_state :
    (∀ (st : SplitState) (u v acc : List Char),
        st.in_string = false → (∀ c ∈ u, plainCode c) →
        scanChars st acc (u ++ '-' :: '-' :: v) = { st with in_comment := true }) ∧
    (∀ (st : SplitState) (line : List Char),
        st.in_comment = true → st.in_string = false →
        hasSeq '*' '/' line = false → processLine st line = st) ∧
    (∀ (st : SplitState) (line : List Char),
        st.in_comment = true → st.in_string = false →
        (processLine st line).in_comment = false → hasSeq '*' '/' line = true) ∧
    split_sql_queries ("a -- c\nb;\nx */ y;").data = [("x */ y").data] := by
  refine ⟨?_, ?_, ?_, by decide⟩
  · intro st u v acc hs hu
    exact scan_dash hs hu v acc
  · intro st line hc hs hseq
    exact processLine_comment hc hs hseq
  · intro st line hc hs hcleared
    by_contra hfalse
    have hf : hasSeq '*' '/' line = false := by
      simpa using hfalse
    rw [processLine_comment hc hs hf] at hcleared
    exact Bool.noConfusion (hc.symm.trans hcleared)

theorem C10_witness :
    scanChars ⟨[], [], false, none, false⟩ [] ("ab ".data ++ '-' :: '-' :: " cd;".data) =
      ⟨[], [], false, none, true⟩ ∧
    processLine ⟨[], [], false, none, true⟩ ("b;").data = ⟨[], [], false, none, true⟩ ∧
    hasSeq '*' '/' ("x */ y;").data = true ∧
    split_sql_queries ("a -- c\nb;\nx */ y;").data = [("x */ y").data] :=
  ⟨C10_comment_state.1 _ _ _ _ rfl (by decide),
   C10_comment_state.2.1 _ _ rfl rfl (by decide),
   C10_comment_state.2.2.1 ⟨[], [], false, none, true⟩ ("x */ y;").data rfl rfl (by decide),
   C10_comment_state.2.2.2⟩

end TrinoQueriesFlow
